import Mathlib

/-!
Verification of the sonnet-retrieval inverted index
(`Sonnet_Retrieval_2024W/sonnet_retrieval.py`).

The development is a shallow embedding of the core pipeline:
tokenization (`Document.tokenize`), the inverted index
(`Index.__init__` / `Index.add`) and the conjunctive search
(`Index.search`).  The Porter stemmer is an external library module
(`from porter_stemmer import PorterStemmer`), so every definition is
parametrized by an arbitrary stemming function `stem : String → String`;
all claims below are established for every such function, which is
strictly stronger than fixing a concrete stemmer.

Python-to-Lean conventions:
  * a Python `str` is a `String` (a list of characters);
  * `re.sub(r"[.,':;!?]", "", line)` is a character filter on `isPunct`;
  * `str.lower()` is modelled per character on the ASCII range
    (`lowerChar`), matching the source corpus;
  * `str.split()` (split on runs of whitespace, dropping empty pieces)
    is the recursive `wordsAux`;
  * a Python `set[int]` is a `Finset ℤ`; a `dict[str, set[int]]` is a
    function `String → Option (Finset ℤ)` (`none` models an absent key);
  * Python's `sorted(···, key=lambda x: x.id)` is `List.insertionSort`
    by id: both are stable sorts of the same list under the same total
    preorder, hence produce the same output list.
-/

/-- The fixed punctuation set of `re.sub(r"[.,':;!?]", "", line)`;
`Char.ofNat 39` is the apostrophe. -/
def isPunct (c : Char) : Bool :=
  c = '.' || c = ',' || c = Char.ofNat 39 || c = ':' || c = ';' || c = '!' || c = '?'

/-- ASCII uppercase test (code point in `[65, 90]`), as in `Char.isUpper`. -/
def isAsciiUpper (c : Char) : Bool :=
  decide (65 ≤ c.toNat) && decide (c.toNat ≤ 90)

/-- Per-character model of Python's `str.lower()` on the ASCII range. -/
def lowerChar (c : Char) : Char :=
  if isAsciiUpper c then Char.ofNat (c.toNat + 32) else c

/-- Model of Python's `str.split()`: split on runs of whitespace,
never producing empty words.  `acc` is the current word, reversed. -/
def wordsAux : List Char → List Char → List (List Char)
  | [], acc => if acc.isEmpty then [] else [acc.reverse]
  | c :: cs, acc =>
    if c.isWhitespace then
      if acc.isEmpty then wordsAux cs [] else acc.reverse :: wordsAux cs []
    else
      wordsAux cs (c :: acc)

/-- One line of `Document.tokenize`:
`clean_line = re.sub(r"[.,':;!?]", "", line).lower()` followed by
`clean_line.split()`. -/
def cleanTokens (line : String) : List String :=
  (wordsAux ((line.data.filter (fun c => !isPunct c)).map lowerChar) []).map String.mk

/-- `Document.tokenize(use_stemming)`: concatenate the per-line tokens in
line order, then (if stemming is on) stem each token.  `stem` models the
external `PorterStemmer().stem(token, 0, len(token) - 1)` call. -/
def tokenizeLines (stem : String → String) (useStemming : Bool) (lines : List String) :
    List String :=
  let tokens := (lines.map cleanTokens).flatten
  if useStemming then tokens.map stem else tokens

/-- A sonnet: the `Sonnet(Document)` class (identifier, title, text lines). -/
structure Sonnet where
  id : Int
  title : String
  lines : List String
deriving DecidableEq, Repr

/-- `Document.tokenize` invoked on a sonnet's lines. -/
def Sonnet.tokenize (stem : String → String) (d : Sonnet) (useStemming : Bool := true) :
    List String :=
  tokenizeLines stem useStemming d.lines

/-- A query: the `Query(Document)` class, carrying only lines. -/
structure Query where
  lines : List String
deriving DecidableEq, Repr

/-- `Query.__init__`: wrap the raw query string as a single line. -/
def Query.ofString (query : String) : Query :=
  ⟨[query]⟩

/-- The token-to-posting-set mapping underlying `Index`; `none` models a
token that is not a key of the dict. -/
def Mapping : Type :=
  String → Option (Finset Int)

/-- One iteration of the loop body of `Index.add`:
`if token not in self: self[token] = set()` then `self[token].add(document.id)`. -/
def addTok (i : Int) (m : Mapping) (tok : String) : Mapping :=
  fun u => if u = tok then some (insert i ((m tok).getD ∅)) else m u

/-- `Index.add(document)`: insert the document's id under every token of
the document (tokenized with stemming enabled, the default). -/
def addDoc (stem : String → String) (m : Mapping) (d : Sonnet) : Mapping :=
  (d.tokenize stem).foldl (addTok d.id) m

/-- The `Index` class: the dict part plus the retained document list. -/
structure Index where
  mapping : Mapping
  documents : List Sonnet

/-- `Index.__init__(documents)`: start from an empty dict, remember the
collection, and `add` each document in order. -/
def Index.build (stem : String → String) (documents : List Sonnet) : Index :=
  { mapping := documents.foldl (addDoc stem) (fun _ => none)
    documents := documents }

/-- `set.intersection(*relevant_tokens)`: intersection of a nonempty list
of sets (the `[]` case is unreachable in `search`). -/
def interAll : List (Finset Int) → Finset Int
  | [] => ∅
  | s :: rest => rest.foldl (fun a b => a ∩ b) s

/-- `Index.search(query)`, translated branch by branch from the source:
empty token list → `[]`; gather the posting sets of the tokens that are
keys; none found → `[]`; some token missing → `[]`; otherwise intersect,
filter the retained documents and sort by id. -/
def Index.search (stem : String → String) (idx : Index) (q : Query) : List Sonnet :=
  let queryTokens := tokenizeLines stem true q.lines
  if queryTokens.isEmpty then []
  else
    let relevantTokens := queryTokens.filterMap idx.mapping
    if relevantTokens.isEmpty then []
    else if relevantTokens.length < queryTokens.length then []
    else
      let matchingIds := interAll relevantTokens
      let matchingSonnets := idx.documents.filter (fun d => decide (d.id ∈ matchingIds))
      List.insertionSort (fun a b => a.id ≤ b.id) matchingSonnets

/-- `Index.search` written as a state transformer on the index, recording
after each statement of the method body that the receiver is only read,
never written: every exit path returns the index unchanged. -/
def Index.searchM (stem : String → String) (idx : Index) (q : Query) :
    List Sonnet × Index :=
  let queryTokens := tokenizeLines stem true q.lines
  if queryTokens.isEmpty then ([], idx)
  else
    let relevantTokens := queryTokens.filterMap idx.mapping
    if relevantTokens.isEmpty then ([], idx)
    else if relevantTokens.length < queryTokens.length then ([], idx)
    else
      let matchingIds := interAll relevantTokens
      let matchingSonnets := idx.documents.filter (fun d => decide (d.id ∈ matchingIds))
      (List.insertionSort (fun a b => a.id ≤ b.id) matchingSonnets, idx)

/-- The ids of the documents of `docs` whose token sequence contains `t`. -/
def idsWith (stem : String → String) (docs : List Sonnet) (t : String) : Finset Int :=
  ((docs.filter (fun d => decide (t ∈ d.tokenize stem))).map Sonnet.id).toFinset

/-! ### Character-level lemmas -/

/-- Lowercasing never produces an ASCII uppercase character. -/
lemma isAsciiUpper_lowerChar (c : Char) : isAsciiUpper (lowerChar c) = false := by
  unfold lowerChar
  split
  · rename_i h
    unfold isAsciiUpper at h
    simp only [Bool.and_eq_true, decide_eq_true_eq] at h
    obtain ⟨h1, h2⟩ := h
    obtain ⟨n, hn⟩ : ∃ n, c.toNat = n := ⟨_, rfl⟩
    rw [hn] at h1 h2 ⊢
    interval_cases n <;> decide
  · rename_i h
    simpa using h

/-- Lowercasing never produces a punctuation character. -/
lemma isPunct_lowerChar {c : Char} (h : isPunct c = false) :
    isPunct (lowerChar c) = false := by
  unfold lowerChar
  split
  · rename_i hu
    unfold isAsciiUpper at hu
    simp only [Bool.and_eq_true, decide_eq_true_eq] at hu
    obtain ⟨h1, h2⟩ := hu
    obtain ⟨n, hn⟩ : ∃ n, c.toNat = n := ⟨_, rfl⟩
    rw [hn] at h1 h2 ⊢
    interval_cases n <;> decide
  · exact h

/-- Every character of a word produced by `wordsAux` comes from the input
or from the accumulator. -/
lemma mem_of_mem_wordsAux {w : List Char} :
    ∀ {cs acc : List Char}, w ∈ wordsAux cs acc → ∀ c ∈ w, c ∈ cs ∨ c ∈ acc := by
  intro cs
  induction cs with
  | nil =>
    intro acc hw c hc
    unfold wordsAux at hw
    split at hw
    · simp at hw
    · simp only [List.mem_singleton] at hw
      subst hw
      right
      simpa using hc
  | cons c0 cs ih =>
    intro acc hw c hc
    unfold wordsAux at hw
    split at hw
    · split at hw
      · rcases ih hw c hc with h | h
        · exact Or.inl (List.mem_cons_of_mem _ h)
        · simp at h
      · rcases List.mem_cons.mp hw with rfl | hw2
        · right
          simpa using hc
        · rcases ih hw2 c hc with h | h
          · exact Or.inl (List.mem_cons_of_mem _ h)
          · simp at h
    · rcases ih hw c hc with h | h
      · exact Or.inl (List.mem_cons_of_mem _ h)
      · rcases List.mem_cons.mp h with rfl | h2
        · exact Or.inl (List.mem_cons_self _ _)
        · exact Or.inr h2

/-- Every character of a token of `cleanTokens` is lowercase and is not a
punctuation character. -/
lemma cleanTokens_clean {line : String} {t : String} (ht : t ∈ cleanTokens line) :
    ∀ c ∈ t.data, isAsciiUpper c = false ∧ isPunct c = false := by
  unfold cleanTokens at ht
  rcases List.mem_map.mp ht with ⟨w, hw, rfl⟩
  intro c hc
  have hc' : c ∈ w := hc
  rcases mem_of_mem_wordsAux hw c hc' with h | h
  · rcases List.mem_map.mp h with ⟨c0, hc0, rfl⟩
    have hp : isPunct c0 = false := by
      have := (List.mem_filter.mp hc0).2
      simpa using this
    exact ⟨isAsciiUpper_lowerChar c0, isPunct_lowerChar hp⟩
  · simp at h

/-! ### Characterizing the mapping built by `Index.__init__` -/

/-- Evaluating the token loop of `Index.add`: the posting set of `t` gains
`i` exactly when `t` occurs among the processed tokens. -/
lemma foldl_addTok_apply (i : Int) :
    ∀ (toks : List String) (m : Mapping) (t : String),
      (toks.foldl (addTok i) m) t =
        if t ∈ toks then some (insert i ((m t).getD ∅)) else m t
  | [], m, t => by simp
  | a :: toks, m, t => by
    simp only [List.foldl_cons]
    rw [foldl_addTok_apply i toks]
    by_cases hta : t = a
    · subst hta
      by_cases htt : t ∈ toks
      · simp [addTok, htt, Finset.insert_idem]
      · simp [addTok, htt]
    · simp [addTok, hta, List.mem_cons]

/-- `Index.add(document)` pointwise. -/
lemma addDoc_apply (stem : String → String) (m : Mapping) (d : Sonnet) (t : String) :
    addDoc stem m d t =
      if t ∈ d.tokenize stem then some (insert d.id ((m t).getD ∅)) else m t :=
  foldl_addTok_apply d.id (d.tokenize stem) m t

/-- `idsWith` on a cons. -/
lemma idsWith_cons (stem : String → String) (d : Sonnet) (docs : List Sonnet) (t : String) :
    idsWith stem (d :: docs) t =
      if t ∈ d.tokenize stem then insert d.id (idsWith stem docs t)
      else idsWith stem docs t := by
  unfold idsWith
  rw [List.filter_cons]
  by_cases h : t ∈ d.tokenize stem <;> simp [h]

/-- If no document of `docs` contains `t`, then `idsWith` is empty. -/
lemma idsWith_eq_empty {stem : String → String} {docs : List Sonnet} {t : String}
    (h : ¬ ∃ d ∈ docs, t ∈ d.tokenize stem) : idsWith stem docs t = ∅ := by
  unfold idsWith
  have hf : docs.filter (fun d => decide (t ∈ d.tokenize stem)) = [] := by
    rw [List.filter_eq_nil_iff]
    intro d hd
    simpa using fun h2 => h ⟨d, hd, h2⟩
  rw [hf]
  simp

/-- Membership in `idsWith`. -/
lemma mem_idsWith {stem : String → String} {docs : List Sonnet} {t : String} {i : Int} :
    i ∈ idsWith stem docs t ↔ ∃ d ∈ docs, t ∈ d.tokenize stem ∧ d.id = i := by
  unfold idsWith
  simp only [List.mem_toFinset, List.mem_map, List.mem_filter, decide_eq_true_eq]
  constructor
  · rintro ⟨d, ⟨hd, ht⟩, rfl⟩
    exact ⟨d, hd, ht, rfl⟩
  · rintro ⟨d, hd, ht, rfl⟩
    exact ⟨d, ⟨hd, ht⟩, rfl⟩

/-- Evaluating the document loop of `Index.__init__` pointwise. -/
lemma foldl_addDoc_apply (stem : String → String) :
    ∀ (docs : List Sonnet) (m : Mapping) (t : String),
      (docs.foldl (addDoc stem) m) t =
        if ∃ d ∈ docs, t ∈ d.tokenize stem
        then some (idsWith stem docs t ∪ (m t).getD ∅)
        else m t
  | [], m, t => by simp
  | d :: docs, m, t => by
    simp only [List.foldl_cons]
    rw [foldl_addDoc_apply stem docs]
    rw [addDoc_apply]
    by_cases hd : t ∈ d.tokenize stem
    · have hcons : ∃ d' ∈ d :: docs, t ∈ d'.tokenize stem :=
        ⟨d, List.mem_cons_self _ _, hd⟩
      by_cases hrest : ∃ d' ∈ docs, t ∈ d'.tokenize stem
      · rw [if_pos hrest, if_pos hd, if_pos hcons]
        congr 1
        rw [idsWith_cons, if_pos hd]
        simp only [Option.getD_some]
        rw [Finset.union_insert, Finset.insert_union]
      · rw [if_neg hrest, if_pos hd, if_pos hcons]
        rw [idsWith_cons, if_pos hd, idsWith_eq_empty hrest,
          Finset.insert_union, Finset.empty_union]
    · by_cases hrest : ∃ d' ∈ docs, t ∈ d'.tokenize stem
      · have hcons : ∃ d' ∈ d :: docs, t ∈ d'.tokenize stem := by
          obtain ⟨d', hd', ht'⟩ := hrest
          exact ⟨d', List.mem_cons_of_mem _ hd', ht'⟩
        rw [if_pos hrest, if_neg hd, if_pos hcons]
        rw [idsWith_cons, if_neg hd]
      · have hcons : ¬ ∃ d' ∈ d :: docs, t ∈ d'.tokenize stem := by
          rintro ⟨d', hd', ht'⟩
          rcases List.mem_cons.mp hd' with rfl | h2
          · exact hd ht'
          · exact hrest ⟨d', h2, ht'⟩
        rw [if_neg hrest, if_neg hd, if_neg hcons]

/-- The mapping built by `Index.__init__`: a token is a key exactly when
some document contains it, and then its posting set is `idsWith`. -/
lemma build_mapping_apply (stem : String → String) (docs : List Sonnet) (t : String) :
    (Index.build stem docs).mapping t =
      if ∃ d ∈ docs, t ∈ d.tokenize stem then some (idsWith stem docs t) else none := by
  unfold Index.build
  dsimp only
  rw [foldl_addDoc_apply]
  split <;> simp

/-- The build invariant, with unique identifiers: a document's id sits in
the posting set of `t` exactly when the document contains `t`.  (The
posting set of a token that is not a key is read as `∅`.) -/
lemma build_postings_mem {stem : String → String} {docs : List Sonnet}
    (hnd : (docs.map Sonnet.id).Nodup) {d : Sonnet} (hd : d ∈ docs) (t : String) :
    d.id ∈ ((Index.build stem docs).mapping t).getD ∅ ↔ t ∈ d.tokenize stem := by
  rw [build_mapping_apply]
  by_cases h : ∃ d' ∈ docs, t ∈ d'.tokenize stem
  · rw [if_pos h, Option.getD_some, mem_idsWith]
    constructor
    · rintro ⟨d', hd', ht', hid⟩
      have hdd : d' = d := List.inj_on_of_nodup_map hnd hd' hd hid
      exact hdd ▸ ht'
    · intro ht
      exact ⟨d, hd, ht, rfl⟩
  · rw [if_neg h]
    simp only [Option.getD_none, Finset.not_mem_empty, false_iff]
    exact fun ht => h ⟨d, hd, ht⟩

/-! ### Lemmas about the search branches -/

/-- If some element maps to `none`, `filterMap` strictly shrinks the list. -/
lemma length_filterMap_lt {α β : Type} (f : α → Option β) :
    ∀ (l : List α) (a : α), a ∈ l → f a = none → (l.filterMap f).length < l.length
  | x :: xs, a, ha, hf => by
    rcases List.mem_cons.mp ha with rfl | ha2
    · rw [List.filterMap_cons_none hf]
      exact Nat.lt_succ_of_le (List.length_filterMap_le f xs)
    · cases hfx : f x with
      | none =>
        rw [List.filterMap_cons_none hfx]
        exact Nat.lt_succ_of_lt (length_filterMap_lt f xs a ha2 hf)
      | some b =>
        rw [List.filterMap_cons_some hfx]
        exact Nat.succ_lt_succ (length_filterMap_lt f xs a ha2 hf)

/-- If every element maps to `some`, `filterMap` preserves the length. -/
lemma length_filterMap_eq {α β : Type} (f : α → Option β) :
    ∀ (l : List α), (∀ a ∈ l, (f a).isSome) → (l.filterMap f).length = l.length
  | [], _ => rfl
  | x :: xs, h => by
    obtain ⟨b, hb⟩ := Option.isSome_iff_exists.mp (h x (List.mem_cons_self _ _))
    rw [List.filterMap_cons_some hb, List.length_cons, List.length_cons,
      length_filterMap_eq f xs (fun a ha => h a (List.mem_cons_of_mem _ ha))]

/-- Membership in a left fold of intersections. -/
lemma mem_foldl_inter (i : Int) :
    ∀ (l : List (Finset Int)) (a : Finset Int),
      (i ∈ l.foldl (fun x y => x ∩ y) a) ↔ (i ∈ a ∧ ∀ s ∈ l, i ∈ s)
  | [], a => by simp
  | b :: l, a => by
    simp only [List.foldl_cons]
    rw [mem_foldl_inter i l]
    simp only [Finset.mem_inter, List.forall_mem_cons]
    tauto

/-- Membership in the intersection of a nonempty list of sets. -/
lemma mem_interAll {i : Int} {l : List (Finset Int)} (h : l ≠ []) :
    i ∈ interAll l ↔ ∀ s ∈ l, i ∈ s := by
  cases l with
  | nil => exact absurd rfl h
  | cons b l =>
    unfold interAll
    rw [mem_foldl_inter]
    simp only [List.forall_mem_cons]

/-- Membership in the search result when every query token is a key of the
index: the returned documents are the retained ones whose id lies in every
query token's posting set. -/
lemma search_mem_of_all_some {stem : String → String} {idx : Index} {q : Query} {d : Sonnet}
    (hne : tokenizeLines stem true q.lines ≠ [])
    (hall : ∀ t ∈ tokenizeLines stem true q.lines, (idx.mapping t).isSome) :
    d ∈ idx.search stem q ↔
      d ∈ idx.documents ∧
        ∀ t ∈ tokenizeLines stem true q.lines, d.id ∈ (idx.mapping t).getD ∅ := by
  unfold Index.search
  dsimp only
  have hlen := length_filterMap_eq idx.mapping _ hall
  have hne' : ¬ (tokenizeLines stem true q.lines).isEmpty = true := by
    simpa [List.isEmpty_iff] using hne
  rw [if_neg hne']
  have hrne : (tokenizeLines stem true q.lines).filterMap idx.mapping ≠ [] := by
    intro h0
    exact hne (List.length_eq_zero.mp (by rw [← hlen, h0]; rfl))
  rw [if_neg (by simpa [List.isEmpty_iff] using hrne)]
  rw [if_neg (by rw [hlen]; exact lt_irrefl _)]
  rw [(List.perm_insertionSort _ _).mem_iff, List.mem_filter]
  simp only [decide_eq_true_eq]
  constructor
  · rintro ⟨hd, hmem⟩
    refine ⟨hd, fun t ht => ?_⟩
    obtain ⟨s, hs⟩ := Option.isSome_iff_exists.mp (hall t ht)
    rw [hs, Option.getD_some]
    exact (mem_interAll hrne).mp hmem s (List.mem_filterMap.mpr ⟨t, ht, hs⟩)
  · rintro ⟨hd, hmem⟩
    refine ⟨hd, (mem_interAll hrne).mpr ?_⟩
    intro s hs
    obtain ⟨t, ht, hts⟩ := List.mem_filterMap.mp hs
    have hmt := hmem t ht
    rw [hts, Option.getD_some] at hmt
    exact hmt

/-! ### The claims -/

/-- C1: for every index and every query, if any token produced by
tokenizing the query's single line (with stemming enabled) is absent as a
key of the index mapping, then `Index.search` returns an empty result —
even when the remaining query tokens have non-empty posting sets. -/
theorem search_empty_of_missing_token (stem : String → String) (idx : Index) (q : Query)
    (h : ∃ t ∈ tokenizeLines stem true q.lines, idx.mapping t = none) :
    idx.search stem q = [] := by
  obtain ⟨t0, ht0, hm⟩ := h
  unfold Index.search
  dsimp only
  have hne : ¬ (tokenizeLines stem true q.lines).isEmpty = true := by
    simp only [List.isEmpty_iff]
    intro h0
    rw [h0] at ht0
    simp at ht0
  rw [if_neg hne]
  by_cases hre : ((tokenizeLines stem true q.lines).filterMap idx.mapping).isEmpty = true
  · rw [if_pos hre]
  · rw [if_neg hre, if_pos (length_filterMap_lt idx.mapping _ t0 ht0 hm)]

/-- Witness for C1: in an index over one document with line
`"hello world"`, the query `"hello missing"` has the indexed token
`"hello"` (with a non-empty posting set) and the missing token
`"missing"`, and the search result is empty. -/
theorem search_empty_of_missing_token_witness :
    (∃ t ∈ tokenizeLines id true (Query.ofString "hello missing").lines,
        (Index.build id [⟨1, "t", ["hello world"]⟩]).mapping t = none) ∧
      (Index.build id [⟨1, "t", ["hello world"]⟩]).mapping "hello" = some {1} ∧
      (Index.build id [⟨1, "t", ["hello world"]⟩]).search id
        (Query.ofString "hello missing") = [] :=
  ⟨by decide, by decide,
    search_empty_of_missing_token id _ _ (by decide)⟩

/-- C2 (amended): for every collection of documents with pairwise distinct
identifiers and every query whose stemmed token sequence is nonempty and
all of whose tokens are keys of the index built from the collection,
`Index.search` returns exactly those documents of the collection whose
tokenized-and-stemmed lines contain every stemmed query token. -/
theorem search_build_conjunctive (stem : String → String) (docs : List Sonnet)
    (q : Query) (d : Sonnet)
    (hnd : (docs.map Sonnet.id).Nodup)
    (hne : tokenizeLines stem true q.lines ≠ [])
    (hall : ∀ t ∈ tokenizeLines stem true q.lines,
      ((Index.build stem docs).mapping t).isSome) :
    d ∈ (Index.build stem docs).search stem q ↔
      d ∈ docs ∧ ∀ t ∈ tokenizeLines stem true q.lines, t ∈ d.tokenize stem := by
  rw [search_mem_of_all_some hne hall]
  constructor
  · rintro ⟨hd, hmem⟩
    exact ⟨hd, fun t ht => (build_postings_mem hnd hd t).mp (hmem t ht)⟩
  · rintro ⟨hd, hmem⟩
    exact ⟨hd, fun t ht => (build_postings_mem hnd hd t).mpr (hmem t ht)⟩

/-- Counterexample to C2 as stated: for the empty query every token is
vacuously present in the index, and every document vacuously contains
every query token, yet `search` returns the empty list rather than the
whole collection. -/
theorem search_build_conjunctive_empty_query_cex :
    (([(⟨1, "t1", ["a"]⟩ : Sonnet)].map Sonnet.id).Nodup) ∧
      (∀ t ∈ tokenizeLines id true (Query.ofString "").lines,
        ((Index.build id [(⟨1, "t1", ["a"]⟩ : Sonnet)]).mapping t).isSome) ∧
      ¬ ((⟨1, "t1", ["a"]⟩ : Sonnet) ∈
            (Index.build id [(⟨1, "t1", ["a"]⟩ : Sonnet)]).search id (Query.ofString "") ↔
          (⟨1, "t1", ["a"]⟩ : Sonnet) ∈ [(⟨1, "t1", ["a"]⟩ : Sonnet)] ∧
            ∀ t ∈ tokenizeLines id true (Query.ofString "").lines,
              t ∈ Sonnet.tokenize id ⟨1, "t1", ["a"]⟩) := by
  decide

/-- Witness for C2 (amended): the spec's single-document round trip — one
document with line `"Fair is my love"`, query `"fair love"`. -/
theorem search_build_conjunctive_witness :
    (⟨1, "t1", ["Fair is my love"]⟩ : Sonnet) ∈
        (Index.build id [(⟨1, "t1", ["Fair is my love"]⟩ : Sonnet)]).search id
          (Query.ofString "fair love") ↔
      (⟨1, "t1", ["Fair is my love"]⟩ : Sonnet) ∈
          [(⟨1, "t1", ["Fair is my love"]⟩ : Sonnet)] ∧
        ∀ t ∈ tokenizeLines id true (Query.ofString "fair love").lines,
          t ∈ Sonnet.tokenize id ⟨1, "t1", ["Fair is my love"]⟩ :=
  search_build_conjunctive id _ _ _ (by decide) (by decide) (by decide)

/-- C3: after the index is built from a collection with pairwise distinct
identifiers, a document's id is in the posting set of token `t` exactly
when `t` occurs among the tokens of the document's lines (tokenized with
stemming enabled); the posting set of a token that is not a key is read as
the empty set. -/
theorem build_posting_mem_iff_occurs (stem : String → String) (docs : List Sonnet)
    (hnd : (docs.map Sonnet.id).Nodup) (t : String) (d : Sonnet) (hd : d ∈ docs) :
    d.id ∈ ((Index.build stem docs).mapping t).getD ∅ ↔
      t ∈ tokenizeLines stem true d.lines :=
  build_postings_mem hnd hd t

/-- Witness for C3: in the one-document index over `"hello world"`, id 1
is in the posting set of `"hello"`, which does occur in the document. -/
theorem build_posting_mem_iff_occurs_witness :
    (([(⟨1, "t", ["hello world"]⟩ : Sonnet)].map Sonnet.id).Nodup) ∧
      ((⟨1, "t", ["hello world"]⟩ : Sonnet).id ∈
          ((Index.build id [(⟨1, "t", ["hello world"]⟩ : Sonnet)]).mapping "hello").getD ∅ ↔
        "hello" ∈ tokenizeLines id true (⟨1, "t", ["hello world"]⟩ : Sonnet).lines) :=
  ⟨by decide,
    build_posting_mem_iff_occurs id _ (by decide) "hello" _ (by decide)⟩

/-- C4: a query that tokenizes to the empty token sequence — in
particular `""` and the whitespace-only `"   "` — yields an empty search
result (and, the functions being total, no error). -/
theorem search_empty_query :
    (∀ (stem : String → String) (idx : Index) (q : Query),
        tokenizeLines stem true q.lines = [] → idx.search stem q = []) ∧
      ∀ (stem : String → String) (idx : Index),
        idx.search stem (Query.ofString "") = [] ∧
          idx.search stem (Query.ofString "   ") = [] := by
  have part1 : ∀ (stem : String → String) (idx : Index) (q : Query),
      tokenizeLines stem true q.lines = [] → idx.search stem q = [] := by
    intro stem idx q h
    unfold Index.search
    dsimp only
    rw [if_pos (by simpa [List.isEmpty_iff] using h)]
  exact ⟨part1, fun stem idx => ⟨part1 stem idx _ rfl, part1 stem idx _ rfl⟩⟩

/-- Witness for C4: the empty query on a concrete one-document index. -/
theorem search_empty_query_witness :
    tokenizeLines id true (Query.ofString "").lines = [] ∧
      (Index.build id [(⟨1, "t", ["hello world"]⟩ : Sonnet)]).search id
        (Query.ofString "") = [] :=
  ⟨rfl, search_empty_query.1 id _ _ rfl⟩

/-- C5: every search result is sorted ascending by document identifier;
in particular a query matching the documents with identifiers 7, 2 and 19
returns them in the order 2, 7, 19. -/
theorem search_sorted_by_id :
    (∀ (stem : String → String) (idx : Index) (q : Query),
        List.Sorted (fun a b : Sonnet => a.id ≤ b.id) (idx.search stem q)) ∧
      (Index.build id
            [(⟨7, "s7", ["common word"]⟩ : Sonnet), ⟨2, "s2", ["common word"]⟩,
              ⟨19, "s19", ["common word"]⟩]).search id (Query.ofString "common")
        = [⟨2, "s2", ["common word"]⟩, ⟨7, "s7", ["common word"]⟩,
            ⟨19, "s19", ["common word"]⟩] := by
  constructor
  · intro stem idx q
    haveI : IsTotal Sonnet (fun a b : Sonnet => a.id ≤ b.id) :=
      ⟨fun a b => Int.le_total a.id b.id⟩
    haveI : IsTrans Sonnet (fun a b : Sonnet => a.id ≤ b.id) :=
      ⟨fun _ _ _ hab hbc => le_trans hab hbc⟩
    unfold Index.search
    dsimp only
    split_ifs
    · exact List.sorted_nil
    · exact List.sorted_nil
    · exact List.sorted_nil
    · exact List.sorted_insertionSort _ _
  · decide

/-- C6 (amended): tokenization is deterministic (two runs on the same
input yield the same token sequence) and, before the stemming pass, every
produced token is free of ASCII uppercase and of the stripped punctuation
characters; tokenizing `["Love's the king!"]` with stemming disabled
yields `["loves", "the", "king"]` (the apostrophe is stripped, so the
first token keeps its plural `s`). -/
theorem tokenize_deterministic_clean :
    (∀ (stem : String → String) (u : Bool) (lines : List String),
        tokenizeLines stem u lines = tokenizeLines stem u lines) ∧
      (∀ (stem : String → String) (lines : List String) (t : String),
        t ∈ tokenizeLines stem false lines →
          ∀ c ∈ t.data, isAsciiUpper c = false ∧ isPunct c = false) ∧
      ∀ stem : String → String,
        tokenizeLines stem false ["Love" ++ (Char.ofNat 39).toString ++ "s the king!"]
          = ["loves", "the", "king"] := by
  refine ⟨fun _ _ _ => rfl, ?_, fun _ => rfl⟩
  intro stem lines t ht
  have hrw : tokenizeLines stem false lines = (lines.map cleanTokens).flatten := rfl
  rw [hrw] at ht
  rcases List.mem_flatten.mp ht with ⟨l, hl, htl⟩
  rcases List.mem_map.mp hl with ⟨line, _, rfl⟩
  exact cleanTokens_clean htl

/-- Counterexample to C6 as stated: with stemming disabled, the code
strips the apostrophe of `"Love's"` and produces the token `"loves"`,
not `"love"`. -/
theorem tokenize_love_king_cex :
    tokenizeLines id false ["Love" ++ (Char.ofNat 39).toString ++ "s the king!"]
      ≠ ["love", "the", "king"] := by
  decide

/-- Witness for C6: the cleanliness conjunct evaluated on a concrete
token of a concrete line. -/
theorem tokenize_deterministic_clean_witness :
    "hello" ∈ tokenizeLines id false ["Hello, World!"] ∧
      ∀ c ∈ "hello".data, isAsciiUpper c = false ∧ isPunct c = false :=
  ⟨by decide, tokenize_deterministic_clean.2.1 id ["Hello, World!"] "hello" (by decide)⟩

/-- C7: building the index from any permutation of the collection yields
the same token-to-identifier-set mapping. -/
theorem build_mapping_perm_invariant (stem : String → String)
    (docs₁ docs₂ : List Sonnet) (h : docs₁.Perm docs₂) :
    (Index.build stem docs₁).mapping = (Index.build stem docs₂).mapping := by
  funext t
  rw [build_mapping_apply, build_mapping_apply]
  have hmem : (∃ d ∈ docs₁, t ∈ d.tokenize stem) ↔ ∃ d ∈ docs₂, t ∈ d.tokenize stem := by
    constructor <;> rintro ⟨d, hd, ht⟩
    · exact ⟨d, h.mem_iff.mp hd, ht⟩
    · exact ⟨d, h.mem_iff.mpr hd, ht⟩
  have hids : idsWith stem docs₁ t = idsWith stem docs₂ t := by
    ext i
    rw [mem_idsWith, mem_idsWith]
    constructor <;> rintro ⟨d, hd, ht, rfl⟩
    · exact ⟨d, h.mem_iff.mp hd, ht, rfl⟩
    · exact ⟨d, h.mem_iff.mpr hd, ht, rfl⟩
  rw [hids]
  exact if_congr hmem rfl rfl

/-- Witness for C7: swapping two concrete documents yields the same
mapping. -/
theorem build_mapping_perm_invariant_witness :
    ([(⟨1, "a", ["alpha beta"]⟩ : Sonnet), ⟨2, "b", ["beta gamma"]⟩]).Perm
        [⟨2, "b", ["beta gamma"]⟩, ⟨1, "a", ["alpha beta"]⟩] ∧
      (Index.build id
          [(⟨1, "a", ["alpha beta"]⟩ : Sonnet), ⟨2, "b", ["beta gamma"]⟩]).mapping
        = (Index.build id
            [(⟨2, "b", ["beta gamma"]⟩ : Sonnet), ⟨1, "a", ["alpha beta"]⟩]).mapping :=
  ⟨by decide, build_mapping_perm_invariant id _ _ (by decide)⟩

/-- C8: constructing a query from a raw string yields exactly the
one-element line sequence holding that string, so the query goes through
the same tokenization pipeline as the indexed documents. -/
theorem query_ofString_lines (s : String) :
    (Query.ofString s).lines = [s] ∧
      ∀ (stem : String → String) (u : Bool),
        tokenizeLines stem u (Query.ofString s).lines = tokenizeLines stem u [s] :=
  ⟨rfl, fun _ _ => rfl⟩

/-- C9: `Index.search` as a state transformer returns the index it was
given, unchanged, along with the same result list `Index.search`
computes: searching alters neither the token-to-posting-set mapping nor
the retained document collection. -/
theorem search_readonly (stem : String → String) (idx : Index) (q : Query) :
    idx.searchM stem q = (idx.search stem q, idx) := by
  unfold Index.searchM Index.search
  dsimp only
  split_ifs <;> rfl

/-- C10: every token that is a key of the built index maps to a non-empty
posting set, and every identifier in any posting set is the id of some
document of the retained collection. -/
theorem build_postings_nonempty_no_dangling (stem : String → String)
    (docs : List Sonnet) (t : String) (s : Finset Int)
    (h : (Index.build stem docs).mapping t = some s) :
    s.Nonempty ∧ ∀ i ∈ s, ∃ d ∈ (Index.build stem docs).documents, d.id = i := by
  rw [build_mapping_apply] at h
  split at h
  · rename_i hex
    obtain ⟨d0, hd0, ht0⟩ := hex
    have hs : idsWith stem docs t = s := by injection h
    subst hs
    constructor
    · exact ⟨d0.id, mem_idsWith.mpr ⟨d0, hd0, ht0, rfl⟩⟩
    · intro i hi
      obtain ⟨d, hd, _, hid⟩ := mem_idsWith.mp hi
      exact ⟨d, hd, hid⟩
  · exact absurd h (by simp)

/-- Witness for C10: the posting set of `"hello"` in a one-document index
is the non-empty `{1}`, and 1 is the id of the retained document. -/
theorem build_postings_nonempty_no_dangling_witness :
    (Index.build id [(⟨1, "t", ["hello world"]⟩ : Sonnet)]).mapping "hello"
        = some {1} ∧
      ({1} : Finset Int).Nonempty ∧
        ∀ i ∈ ({1} : Finset Int),
          ∃ d ∈ (Index.build id [(⟨1, "t", ["hello world"]⟩ : Sonnet)]).documents,
            d.id = i :=
  ⟨by decide, build_postings_nonempty_no_dangling id _ "hello" _ (by decide)⟩
